import Mathlib

/-!
Shallow embedding of the report aggregator of `bitjira.py` (the `parse_result`
routine together with its helpers `parse_pipelines` and `parse_pullrequests`),
and proofs of the behavioural properties claimed for it.

Modelling conventions:
* Python `dict` (insertion ordered) is an association list `List (String × α)`;
  `d[k] = v` is `dinsert`, `d.get(k)` is `alistGet`, and the grouping idiom
  `if not d.get(k): d[k] = []` followed by `d[k].append(v)` is `groupAppend`.
* A raw API record is a structure of `Option` fields, one per access path the
  code reads; Python's `KeyError` on a missing key is `Except.error path`.
  Nested accesses such as `jira["fields"]["status"]["name"]` are flattened to
  a single optional field labelled with the full path.
* `re.compile("|".join(ids)).search(branch)` is `regexSearch`: identifiers are
  treated as regex-literal text (issue keys contain no metacharacters), and an
  empty identifier list yields the empty pattern, which matches every string.
* The module-level configuration strings read from environment variables are
  modelled as fixed constants; no claim depends on their values.
-/

/-- Configuration constant, read from the environment variable
`BITBUCKET_BASE_URL` at module load in the source. -/
def BITBUCKET_BASE_URL : String := "https://bitbucket.example"

/-- Configuration constant, read from the environment variable
`JIRA_API_HOST` at module load in the source. -/
def JIRA_API_HOST : String := "https://jira.example"

/-- Boolean test that the first list is a prefix of the second. -/
def listPrefixOf : List Char → List Char → Bool
  | [], _ => true
  | _ :: _, [] => false
  | a :: as, b :: bs => a == b && listPrefixOf as bs

/-- Boolean test that `n` occurs as a contiguous sublist of the second list. -/
def listInfixOf (n : List Char) : List Char → Bool
  | [] => listPrefixOf n []
  | c :: t => listPrefixOf n (c :: t) || listInfixOf n t

/-- Python `needle in hay` on strings: substring containment. -/
def strContains (hay needle : String) : Bool :=
  listInfixOf needle.data hay.data

/-- Helper for `lastSegment`: scan the characters, resetting the accumulator
at each `/`. -/
def lastSegAux : List Char → List Char → List Char
  | [], acc => acc
  | c :: cs, acc => if c == '/' then lastSegAux cs [] else lastSegAux cs (acc ++ [c])

/-- Python `branch.split("/")[-1]`: the substring after the last slash. -/
def lastSegment (s : String) : String :=
  ⟨lastSegAux s.data []⟩

/-- Python `re.compile("|".join(ids)).search(s)` as a Boolean: with a nonempty
identifier list this is containment of some identifier as a substring; with an
empty list the compiled pattern is the empty string, which matches any `s`. -/
def regexSearch (ids : List String) (s : String) : Bool :=
  ids.isEmpty || ids.any (fun id => strContains s id)

/-- Raw Jira issue record, one optional field per access path that
`parse_result` reads (lines 131-144 of the source). -/
structure RawIssue where
  key : Option String
  status : Option String
  issuetype : Option String
  summary : Option String
  reporter : Option String
  assignee : Option String
deriving DecidableEq, Repr

/-- Raw Bitbucket pull-request record: the paths `source.branch.name` and
`links.html.href` read by `parse_pullrequests`. -/
structure RawPullRequest where
  branch : Option String
  url : Option String
deriving DecidableEq, Repr

/-- Raw Bitbucket pipeline record: the paths `target.ref_name` and
`build_number` read by `parse_pipelines`. -/
structure RawPipeline where
  branch : Option String
  build_number : Option Int
deriving DecidableEq, Repr

/-- Entry of a result's `pullrequests` list: `{url, branch}`. -/
structure PREntry where
  url : String
  branch : String
deriving DecidableEq, Repr

/-- Entry of a result's `pipelines` list: `{url, branch, build_number}`. -/
structure PipelineEntry where
  url : String
  branch : String
  build_number : Int
deriving DecidableEq, Repr

/-- One aggregated result record, as seeded at lines 134-144 of the source
and later enriched with pull requests and pipelines. -/
structure ResultEntry where
  id : String
  status : String
  type : String
  title : String
  reporter : String
  assignee : String
  jira_url : String
  pullrequests : List PREntry
  pipelines : List PipelineEntry
deriving DecidableEq, Repr

/-- Python dict lookup `d.get(k)` on an insertion-ordered association list. -/
def alistGet {α : Type} (m : List (String × α)) (k : String) : Option α :=
  match m with
  | [] => none
  | (k', v) :: rest => if k' = k then some v else alistGet rest k

/-- Python dict assignment `d[k] = v`: update in place if the key is present
(keeping its position), otherwise append at the end. -/
def dinsert {α : Type} (m : List (String × α)) (k : String) (v : α) :
    List (String × α) :=
  match m with
  | [] => [(k, v)]
  | (k', v') :: rest => if k' = k then (k, v) :: rest else (k', v') :: dinsert rest k v

/-- The grouping idiom `if not d.get(k): d[k] = []` followed by
`d[k].append(v)`: append `v` to the key's list, creating it if needed. -/
def groupAppend {α : Type} (m : List (String × List α)) (k : String) (v : α) :
    List (String × List α) :=
  match m with
  | [] => [(k, [v])]
  | (k', vs) :: rest =>
    if k' = k then (k', vs ++ [v]) :: rest else (k', vs) :: groupAppend rest k v

/-- Python dict key access `record[path]`: a missing key raises
`KeyError`, modelled as `Except.error path`. -/
def jget {α : Type} (o : Option α) (path : String) : Except String α :=
  match o with
  | some v => Except.ok v
  | none => Except.error path

/-- Seeding of one draft result from a Jira issue record (source lines
131-144), reading the fields in the evaluation order of the dict literal. -/
def makeResultEntry (jira : RawIssue) : Except String (String × ResultEntry) := do
  let jira_id ← jget jira.key "key"
  let status ← jget jira.status "fields.status.name"
  let issuetype ← jget jira.issuetype "fields.issuetype.name"
  let title ← jget jira.summary "fields.summary"
  let reporter ← jget jira.reporter "fields.reporter.displayName"
  let assignee ← jget jira.assignee "fields.assignee.displayName"
  return (jira_id,
    { id := jira_id, status := status, type := issuetype, title := title,
      reporter := reporter, assignee := assignee,
      jira_url := JIRA_API_HOST ++ "/browse/" ++ jira_id,
      pullrequests := [], pipelines := [] })

/-- The seeding loop of `parse_result` over the Jira response (source lines
131-144), threading the `results` dict. -/
def buildResults : List RawIssue → List (String × ResultEntry) →
    Except String (List (String × ResultEntry))
  | [], acc => Except.ok acc
  | jira :: rest, acc => do
    let kv ← makeResultEntry jira
    buildResults rest (dinsert acc kv.1 kv.2)

/-- Loop body of `parse_pullrequests` (source lines 112-120): read the branch,
and when the combined pattern matches, group `{url, branch}` under the last
path segment of the branch; the URL field is only read on a match. -/
def parse_pullrequests_go (ids : List String) :
    List RawPullRequest → List (String × List PREntry) →
    Except String (List (String × List PREntry))
  | [], acc => Except.ok acc
  | pr :: rest, acc =>
    match pr.branch with
    | none => Except.error "source.branch.name"
    | some branch =>
      if regexSearch ids branch then
        match pr.url with
        | none => Except.error "links.html.href"
        | some url =>
          parse_pullrequests_go ids rest
            (groupAppend acc (lastSegment branch) { url := url, branch := branch })
      else
        parse_pullrequests_go ids rest acc

/-- `parse_pullrequests` (source lines 106-121). -/
def parse_pullrequests (raw_pullrequests : List RawPullRequest) (ids : List String) :
    Except String (List (String × List PREntry)) :=
  parse_pullrequests_go ids raw_pullrequests []

/-- Loop body of `parse_pipelines` (source lines 89-102): read branch and
build number, and when the combined pattern matches, group
`{url, branch, build_number}` under the last path segment of the branch. -/
def parse_pipelines_go (ids : List String) :
    List RawPipeline → List (String × List PipelineEntry) →
    Except String (List (String × List PipelineEntry))
  | [], acc => Except.ok acc
  | pipeline :: rest, acc =>
    match pipeline.branch with
    | none => Except.error "target.ref_name"
    | some branch =>
      match pipeline.build_number with
      | none => Except.error "build_number"
      | some build_number =>
        if regexSearch ids branch then
          parse_pipelines_go ids rest
            (groupAppend acc (lastSegment branch)
              { url := BITBUCKET_BASE_URL ++ "/pipelines/results/" ++ toString build_number,
                branch := branch, build_number := build_number })
        else
          parse_pipelines_go ids rest acc

/-- `parse_pipelines` (source lines 81-103). -/
def parse_pipelines (raw_pipelines : List RawPipeline) (ids : List String) :
    Except String (List (String × List PipelineEntry)) :=
  parse_pipelines_go ids raw_pipelines []

/-- The per-key pipeline filtering loop of `parse_result` (source lines
157-171): partition into a "migrations" bucket, kept wholesale in input
order, and a "regular_pr" bucket holding only the entry with the running
maximum `build_number` (strict `<` comparison, running maximum initialised
to 0). -/
def filterPipelines_go :
    List PipelineEntry → List PipelineEntry → List PipelineEntry → Int →
    List PipelineEntry × List PipelineEntry
  | [], migrations, regular, _ => (migrations, regular)
  | p :: rest, migrations, regular, last =>
    if strContains p.branch "migra" then
      filterPipelines_go rest (migrations ++ [p]) regular last
    else if last < p.build_number then
      filterPipelines_go rest migrations [p] p.build_number
    else
      filterPipelines_go rest migrations regular last

/-- A key's final pipeline list (source lines 173-174): the migration bucket
followed by the regular bucket, in the insertion order of
`filtered_pipelines`. -/
def filterPipelines (pipes : List PipelineEntry) : List PipelineEntry :=
  let mr := filterPipelines_go pipes [] [] 0
  mr.1 ++ mr.2

/-- One step of the pipeline-merging loop (source lines 155-174): if the key
is present in `results`, extend that entry's pipeline list with the filtered
pipelines; otherwise leave `results` unchanged. -/
def updateEntryPipelines (results : List (String × ResultEntry)) (key : String)
    (pipes : List PipelineEntry) : List (String × ResultEntry) :=
  results.map (fun kv =>
    if kv.1 = key then
      (kv.1, { kv.2 with pipelines := kv.2.pipelines ++ filterPipelines pipes })
    else kv)

/-- The pipeline-merging loop of `parse_result` over the grouped pipelines
dict (source lines 155-174). -/
def mergePipelines (results : List (String × ResultEntry)) :
    List (String × List PipelineEntry) → List (String × ResultEntry)
  | [] => results
  | (key, pipes) :: rest => mergePipelines (updateEntryPipelines results key pipes) rest

/-- One step of the pull-request-merging loop (source lines 176-178): if the
key is present in `results`, assign the grouped pull-request list to that
entry; otherwise leave `results` unchanged. -/
def updateEntryPRs (results : List (String × ResultEntry)) (key : String)
    (prs : List PREntry) : List (String × ResultEntry) :=
  results.map (fun kv =>
    if kv.1 = key then (kv.1, { kv.2 with pullrequests := prs }) else kv)

/-- The pull-request-merging loop of `parse_result` (source lines 176-178). -/
def mergePRs (results : List (String × ResultEntry)) :
    List (String × List PREntry) → List (String × ResultEntry)
  | [] => results
  | (key, prs) :: rest => mergePRs (updateEntryPRs results key prs) rest

/-- `parse_result` (source lines 124-180): seed the results dict from the
issues, build the combined pattern from its keys, group pull requests and
pipelines (in the order `asyncio.gather` runs and raises: pull requests
first), merge pipelines then pull requests into the results, and return the
dict's values in insertion order. -/
def parse_result (jira_response : List RawIssue)
    (pullrequests_response : List RawPullRequest)
    (pipelines_response : List RawPipeline) : Except String (List ResultEntry) := do
  let results ← buildResults jira_response []
  let ids := results.map Prod.fst
  let pullrequests ← parse_pullrequests pullrequests_response ids
  let pipelines ← parse_pipelines pipelines_response ids
  let results := mergePipelines results pipelines
  let results := mergePRs results pullrequests
  return results.map Prod.snd

/-! ## Well-formed input records

Total counterparts of the raw records, matching the data-model record shapes
of the three input collections; `toRaw` embeds them into the raw types. -/

/-- A well-formed Issue record: `{identifier, status, type, title, reporter,
assignee}` (the detail URL is derived by the aggregator). -/
structure Issue where
  key : String
  status : String
  issuetype : String
  summary : String
  reporter : String
  assignee : String
deriving DecidableEq, Repr

/-- A well-formed PullRequest record: `{branch, url}`. -/
structure PullRequest where
  branch : String
  url : String
deriving DecidableEq, Repr

/-- A well-formed PipelineRun record: `{branch, build_number}` (the detail
URL is derived by the aggregator). -/
structure Pipeline where
  branch : String
  build_number : Int
deriving DecidableEq, Repr

/-- Embed a well-formed issue as a raw record. -/
def Issue.toRaw (i : Issue) : RawIssue :=
  { key := some i.key, status := some i.status, issuetype := some i.issuetype,
    summary := some i.summary, reporter := some i.reporter, assignee := some i.assignee }

/-- Embed a well-formed pull request as a raw record. -/
def PullRequest.toRaw (p : PullRequest) : RawPullRequest :=
  { branch := some p.branch, url := some p.url }

/-- Embed a well-formed pipeline run as a raw record. -/
def Pipeline.toRaw (p : Pipeline) : RawPipeline :=
  { branch := some p.branch, build_number := some p.build_number }

/-- The draft result seeded from a well-formed issue. -/
def initEntry (i : Issue) : ResultEntry :=
  { id := i.key, status := i.status, type := i.issuetype, title := i.summary,
    reporter := i.reporter, assignee := i.assignee,
    jira_url := JIRA_API_HOST ++ "/browse/" ++ i.key,
    pullrequests := [], pipelines := [] }

/-- The pull-request summary produced for a matched pull request. -/
def mkPREntry (p : PullRequest) : PREntry :=
  { url := p.url, branch := p.branch }

/-- The pipeline summary produced for a matched pipeline run. -/
def mkPipelineEntry (p : Pipeline) : PipelineEntry :=
  { url := BITBUCKET_BASE_URL ++ "/pipelines/results/" ++ toString p.build_number,
    branch := p.branch, build_number := p.build_number }

/-- Generic pure form of the two grouping loops: fold the records, appending
`mk r` under key `keyOf r` whenever `cond r` holds. -/
def groupMany {β α : Type} (keyOf : β → String) (cond : β → Bool) (mk : β → α) :
    List β → List (String × List α) → List (String × List α)
  | [], acc => acc
  | r :: rest, acc =>
    if cond r then groupMany keyOf cond mk rest (groupAppend acc (keyOf r) (mk r))
    else groupMany keyOf cond mk rest acc

/-- Pure form of the seeding loop on well-formed issues. -/
def buildPure : List Issue → List (String × ResultEntry) → List (String × ResultEntry)
  | [], acc => acc
  | i :: rest, acc => buildPure rest (dinsert acc i.key (initEntry i))

/-- How a grouped list for one key accumulates: `none` merged with new
matches `L` is `some L` when `L` is nonempty (and stays `none` otherwise),
and an existing list is extended on the right. -/
def combineGroup {α : Type} (o : Option (List α)) (L : List α) : Option (List α) :=
  match o, L with
  | none, [] => none
  | none, L => some L
  | some xs, L => some (xs ++ L)

/-! ## Association-list lemmas -/

theorem alistGet_not_mem {α : Type} (m : List (String × α)) (k : String)
    (h : k ∉ m.map Prod.fst) : alistGet m k = none := by
  induction m with
  | nil => rfl
  | cons kv rest ih =>
    obtain ⟨k0, v0⟩ := kv
    simp only [List.map_cons, List.mem_cons] at h
    push_neg at h
    simp only [alistGet]
    rw [if_neg (fun hh => h.1 hh.symm)]
    exact ih h.2

theorem groupAppend_get_same {α : Type} (m : List (String × List α)) (k : String) (v : α) :
    alistGet (groupAppend m k v) k = some ((alistGet m k).getD [] ++ [v]) := by
  induction m with
  | nil => simp [groupAppend, alistGet]
  | cons kv rest ih =>
    obtain ⟨k', vs⟩ := kv
    by_cases h : k' = k
    · subst h
      simp [groupAppend, alistGet]
    · simp [groupAppend, alistGet, h, ih]

theorem groupAppend_get_other {α : Type} (m : List (String × List α)) (k k' : String)
    (v : α) (h : k' ≠ k) : alistGet (groupAppend m k v) k' = alistGet m k' := by
  induction m with
  | nil =>
    simp only [groupAppend, alistGet]
    rw [if_neg (fun hh => h hh.symm)]
  | cons kv rest ih =>
    obtain ⟨k0, vs⟩ := kv
    by_cases h0 : k0 = k
    · subst h0
      simp only [groupAppend, if_pos rfl, alistGet]
      rw [if_neg (fun hh => h hh.symm), if_neg (fun hh => h hh.symm)]
    · by_cases h1 : k0 = k'
      · subst h1
        simp [groupAppend, alistGet, h0]
      · simp [groupAppend, alistGet, h0, h1, ih]

theorem groupAppend_keys_sub {α : Type} (m : List (String × List α)) (k : String)
    (v : α) : ∀ x ∈ (groupAppend m k v).map Prod.fst, x ∈ m.map Prod.fst ∨ x = k := by
  induction m with
  | nil => simp [groupAppend]
  | cons kv rest ih =>
    obtain ⟨k0, vs⟩ := kv
    by_cases h0 : k0 = k
    · subst h0
      intro x hx
      simp only [groupAppend, if_pos rfl, eq_self_iff_true, if_true, List.map_cons,
        List.mem_cons] at hx ⊢
      tauto
    · intro x hx
      simp only [groupAppend, if_neg h0, List.map_cons, List.mem_cons] at hx ⊢
      rcases hx with hx | hx
      · exact Or.inl (Or.inl hx)
      · rcases ih x hx with h | h
        · exact Or.inl (Or.inr h)
        · exact Or.inr h

theorem groupAppend_keys_nodup {α : Type} (m : List (String × List α)) (k : String)
    (v : α) (h : (m.map Prod.fst).Nodup) : ((groupAppend m k v).map Prod.fst).Nodup := by
  induction m with
  | nil => simp [groupAppend]
  | cons kv rest ih =>
    obtain ⟨k0, vs⟩ := kv
    simp only [List.map_cons, List.nodup_cons] at h
    by_cases h0 : k0 = k
    · subst h0
      simpa [groupAppend] using h
    · simp only [groupAppend, if_neg h0, List.map_cons, List.nodup_cons]
      refine ⟨fun hx => ?_, ih h.2⟩
      rcases groupAppend_keys_sub rest k v k0 hx with hh | hh
      · exact h.1 hh
      · exact h0 hh

theorem combineGroup_nil {α : Type} (o : Option (List α)) : combineGroup o [] = o := by
  cases o <;> simp [combineGroup]

theorem combineGroup_push {α : Type} (o : Option (List α)) (x : α) (L : List α) :
    combineGroup (some (o.getD [] ++ [x])) L = combineGroup o (x :: L) := by
  cases o <;> simp [combineGroup]

theorem groupMany_get {β α : Type} (keyOf : β → String) (cond : β → Bool) (mk : β → α)
    (recs : List β) (acc : List (String × List α)) (K : String) :
    alistGet (groupMany keyOf cond mk recs acc) K =
      combineGroup (alistGet acc K)
        ((recs.filter (fun r => cond r && (keyOf r == K))).map mk) := by
  induction recs generalizing acc with
  | nil => simp [groupMany, combineGroup_nil]
  | cons r rest ih =>
    by_cases hc : cond r
    · have e1 : groupMany keyOf cond mk (r :: rest) acc
          = groupMany keyOf cond mk rest (groupAppend acc (keyOf r) (mk r)) := by
        simp [groupMany, hc]
      by_cases hk : keyOf r = K
      · have e2 : List.filter (fun x => cond x && (keyOf x == K)) (r :: rest)
            = r :: List.filter (fun x => cond x && (keyOf x == K)) rest := by
          simp [List.filter_cons, hc, hk]
        rw [e1, ih, e2, List.map_cons, hk, groupAppend_get_same, combineGroup_push]
      · have e2 : List.filter (fun x => cond x && (keyOf x == K)) (r :: rest)
            = List.filter (fun x => cond x && (keyOf x == K)) rest := by
          simp [List.filter_cons, hc, beq_eq_false_iff_ne.mpr hk]
        rw [e1, ih, e2, groupAppend_get_other _ _ _ _ (fun hh => hk hh.symm)]
    · have hc' : cond r = false := by simpa using hc
      have e1 : groupMany keyOf cond mk (r :: rest) acc
          = groupMany keyOf cond mk rest acc := by
        simp [groupMany, hc']
      have e2 : List.filter (fun x => cond x && (keyOf x == K)) (r :: rest)
          = List.filter (fun x => cond x && (keyOf x == K)) rest := by
        simp [List.filter_cons, hc']
      rw [e1, e2, ih]

theorem groupMany_keys_nodup {β α : Type} (keyOf : β → String) (cond : β → Bool)
    (mk : β → α) (recs : List β) (acc : List (String × List α))
    (h : (acc.map Prod.fst).Nodup) :
    ((groupMany keyOf cond mk recs acc).map Prod.fst).Nodup := by
  induction recs generalizing acc with
  | nil => exact h
  | cons r rest ih =>
    by_cases hc : cond r
    · simp only [groupMany, if_pos hc]
      exact ih _ (groupAppend_keys_nodup acc (keyOf r) (mk r) h)
    · have hc' : cond r = false := by simpa using hc
      simp only [groupMany, hc', Bool.false_eq_true, if_neg, ite_false]
      exact ih _ h

theorem mkPREntry_toRaw (p : PullRequest) :
    PullRequest.toRaw p = { branch := some p.branch, url := some p.url } := rfl

theorem parse_pullrequests_go_toRaw (ids : List String) (prs : List PullRequest)
    (acc : List (String × List PREntry)) :
    parse_pullrequests_go ids (prs.map PullRequest.toRaw) acc =
      Except.ok (groupMany (fun p => lastSegment p.branch)
        (fun p => regexSearch ids p.branch) mkPREntry prs acc) := by
  induction prs generalizing acc with
  | nil => rfl
  | cons p rest ih =>
    by_cases h : regexSearch ids p.branch
    · simp only [List.map_cons, parse_pullrequests_go, PullRequest.toRaw, groupMany,
        if_pos h, ih]
      rfl
    · have h' : regexSearch ids p.branch = false := by simpa using h
      simp only [List.map_cons, parse_pullrequests_go, PullRequest.toRaw, groupMany, h',
        Bool.false_eq_true, if_neg, ite_false, ih]

theorem parse_pipelines_go_toRaw (ids : List String) (pipes : List Pipeline)
    (acc : List (String × List PipelineEntry)) :
    parse_pipelines_go ids (pipes.map Pipeline.toRaw) acc =
      Except.ok (groupMany (fun p => lastSegment p.branch)
        (fun p => regexSearch ids p.branch) mkPipelineEntry pipes acc) := by
  induction pipes generalizing acc with
  | nil => rfl
  | cons p rest ih =>
    by_cases h : regexSearch ids p.branch
    · simp only [List.map_cons, parse_pipelines_go, Pipeline.toRaw, groupMany,
        if_pos h, ih]
      rfl
    · have h' : regexSearch ids p.branch = false := by simpa using h
      simp only [List.map_cons, parse_pipelines_go, Pipeline.toRaw, groupMany, h',
        Bool.false_eq_true, if_neg, ite_false, ih]

theorem makeResultEntry_toRaw (i : Issue) :
    makeResultEntry i.toRaw = Except.ok (i.key, initEntry i) := rfl

theorem buildResults_toRaw (issues : List Issue) (acc : List (String × ResultEntry)) :
    buildResults (issues.map Issue.toRaw) acc = Except.ok (buildPure issues acc) := by
  induction issues generalizing acc with
  | nil => rfl
  | cons i rest ih =>
    simp only [List.map_cons, buildResults, makeResultEntry_toRaw, buildPure, ih]
    rfl

theorem dinsert_not_mem {α : Type} (m : List (String × α)) (k : String) (v : α)
    (h : k ∉ m.map Prod.fst) : dinsert m k v = m ++ [(k, v)] := by
  induction m with
  | nil => rfl
  | cons kv rest ih =>
    obtain ⟨k0, v0⟩ := kv
    simp only [List.map_cons, List.mem_cons] at h
    push_neg at h
    simp only [dinsert]
    rw [if_neg (fun hh => h.1 hh.symm), ih h.2, List.cons_append]

theorem buildPure_eq_append (issues : List Issue) (acc : List (String × ResultEntry))
    (hnd : (issues.map Issue.key).Nodup)
    (hdisj : ∀ i ∈ issues, i.key ∉ acc.map Prod.fst) :
    buildPure issues acc = acc ++ issues.map (fun i => (i.key, initEntry i)) := by
  induction issues generalizing acc with
  | nil => simp [buildPure]
  | cons i rest ih =>
    simp only [List.map_cons, List.nodup_cons] at hnd
    simp only [buildPure]
    rw [dinsert_not_mem acc i.key _ (hdisj i (by simp))]
    rw [ih _ hnd.2]
    · simp
    · intro j hj
      simp only [List.map_append, List.mem_append, List.map_cons, List.map_nil]
      push_neg
      refine ⟨hdisj j (by simp [hj]), ?_⟩
      simp only [List.mem_singleton]
      intro hh
      exact hnd.1 (hh ▸ (List.mem_map.mpr ⟨j, hj, rfl⟩))

/-! ## String lemmas: the last path segment is a substring -/

theorem listPrefixOf_refl (l : List Char) : listPrefixOf l l = true := by
  induction l with
  | nil => rfl
  | cons a t ih => simp [listPrefixOf, ih]

theorem listInfixOf_cons (n : List Char) (c : Char) (t : List Char)
    (h : listInfixOf n t = true) : listInfixOf n (c :: t) = true := by
  simp [listInfixOf, h]

theorem listInfixOf_self (l : List Char) : listInfixOf l l = true := by
  cases l with
  | nil => rfl
  | cons c t => simp [listInfixOf, listPrefixOf_refl]

theorem listInfixOf_append_left (pre l n : List Char)
    (h : listInfixOf n l = true) : listInfixOf n (pre ++ l) = true := by
  induction pre with
  | nil => simpa using h
  | cons c t ih => exact listInfixOf_cons n c (t ++ l) ih

theorem lastSegAux_infixOf (l : List Char) :
    ∀ acc : List Char, listInfixOf (lastSegAux l acc) (acc ++ l) = true := by
  induction l with
  | nil =>
    intro acc
    simp only [lastSegAux, List.append_nil]
    exact listInfixOf_self acc
  | cons c cs ih =>
    intro acc
    by_cases hc : (c == '/') = true
    · have e : acc ++ c :: cs = (acc ++ [c]) ++ cs := by simp
      rw [e]
      simp only [lastSegAux, hc, if_true]
      exact listInfixOf_append_left (acc ++ [c]) cs _ (by simpa using ih [])
    · have e : acc ++ c :: cs = (acc ++ [c]) ++ cs := by simp
      rw [e]
      simp only [lastSegAux, hc, if_false, Bool.false_eq_true]
      exact ih (acc ++ [c])

theorem strContains_lastSegment (s : String) :
    strContains s (lastSegment s) = true := by
  have h := lastSegAux_infixOf s.data []
  simpa [strContains, lastSegment] using h

theorem regexSearch_of_lastSegment (ids : List String) (s k : String)
    (hk : k ∈ ids) (hs : lastSegment s = k) : regexSearch ids s = true := by
  simp only [regexSearch, Bool.or_eq_true, List.any_eq_true]
  exact Or.inr ⟨k, hk, hs ▸ strContains_lastSegment s⟩

/-! ## Pointwise congruence helpers -/

theorem map_ext_mem {α β : Type} (l : List α) (f g : α → β)
    (h : ∀ a ∈ l, f a = g a) : l.map f = l.map g := by
  induction l with
  | nil => rfl
  | cons a t ih =>
    simp only [List.map_cons]
    rw [h a (by simp), ih (fun b hb => h b (by simp [hb]))]

theorem filter_ext_mem {α : Type} (l : List α) (p q : α → Bool)
    (h : ∀ a ∈ l, p a = q a) : l.filter p = l.filter q := by
  induction l with
  | nil => rfl
  | cons a t ih =>
    simp only [List.filter_cons]
    rw [h a (by simp), ih (fun b hb => h b (by simp [hb]))]

/-! ## Characterisation of the two merge loops -/

/-- Closed form of what the pipeline-merging loop does to one results entry:
extend its pipeline list with the filtered pipelines grouped under its key
(nothing when the key has no grouped pipelines). -/
def setPipelines (dict : List (String × List PipelineEntry))
    (kv : String × ResultEntry) : String × ResultEntry :=
  (kv.1, { kv.2 with pipelines := kv.2.pipelines ++ filterPipelines ((alistGet dict kv.1).getD []) })

/-- Closed form of what the pull-request-merging loop does to one results
entry: replace its pull-request list by the one grouped under its key, if
any. -/
def setPRs (dict : List (String × List PREntry))
    (kv : String × ResultEntry) : String × ResultEntry :=
  (kv.1, { kv.2 with pullrequests := (alistGet dict kv.1).getD kv.2.pullrequests })

theorem mergePipelines_eq (dict : List (String × List PipelineEntry))
    (res : List (String × ResultEntry)) (hd : (dict.map Prod.fst).Nodup) :
    mergePipelines res dict = res.map (setPipelines dict) := by
  induction dict generalizing res with
  | nil =>
    have e : setPipelines [] = fun kv => kv := by
      funext kv
      have h1 : filterPipelines ((alistGet ([] : List (String × List PipelineEntry)) kv.1).getD []) = [] := rfl
      rw [setPipelines, h1, List.append_nil]
    rw [mergePipelines, e, List.map_id']
  | cons kp rest ih =>
    obtain ⟨K', ps⟩ := kp
    simp only [List.map_cons, List.nodup_cons] at hd
    rw [mergePipelines, ih _ hd.2, updateEntryPipelines, List.map_map]
    refine map_ext_mem res _ _ (fun kv _ => ?_)
    by_cases hk : kv.1 = K'
    · simp only [Function.comp_apply, if_pos hk, setPipelines]
      rw [alistGet_not_mem rest kv.1 (hk ▸ hd.1)]
      have e2 : alistGet ((K', ps) :: rest) kv.1 = some ps := by
        simp only [alistGet]
        rw [if_pos hk.symm]
      rw [e2]
      have h1 : filterPipelines ((none : Option (List PipelineEntry)).getD []) = [] := rfl
      rw [h1, List.append_nil, Option.getD_some]
    · simp only [Function.comp_apply, if_neg hk, setPipelines]
      have e2 : alistGet ((K', ps) :: rest) kv.1 = alistGet rest kv.1 := by
        simp only [alistGet]
        rw [if_neg (fun hh => hk hh.symm)]
      rw [e2]

theorem mergePRs_eq (dict : List (String × List PREntry))
    (res : List (String × ResultEntry)) (hd : (dict.map Prod.fst).Nodup) :
    mergePRs res dict = res.map (setPRs dict) := by
  induction dict generalizing res with
  | nil =>
    have e : setPRs [] = fun kv => kv := by
      funext kv
      rw [setPRs]
      rfl
    rw [mergePRs, e, List.map_id']
  | cons kp rest ih =>
    obtain ⟨K', ps⟩ := kp
    simp only [List.map_cons, List.nodup_cons] at hd
    rw [mergePRs, ih _ hd.2, updateEntryPRs, List.map_map]
    refine map_ext_mem res _ _ (fun kv _ => ?_)
    by_cases hk : kv.1 = K'
    · simp only [Function.comp_apply, if_pos hk, setPRs]
      rw [alistGet_not_mem rest kv.1 (hk ▸ hd.1)]
      have e2 : alistGet ((K', ps) :: rest) kv.1 = some ps := by
        simp only [alistGet]
        rw [if_pos hk.symm]
      rw [e2, Option.getD_none, Option.getD_some]
    · simp only [Function.comp_apply, if_neg hk, setPRs]
      have e2 : alistGet ((K', ps) :: rest) kv.1 = alistGet rest kv.1 := by
        simp only [alistGet]
        rw [if_neg (fun hh => hk hh.symm)]
      rw [e2]

/-! ## Closed form of the aggregator on well-formed inputs -/

theorem combineGroup_none_getD {α : Type} (L : List α) :
    (combineGroup none L).getD [] = L := by
  cases L <;> rfl

theorem except_bind_ok {ε α β : Type} (a : α) (f : α → Except ε β) :
    (Except.ok a : Except ε α) >>= f = f a := rfl

/-- The identifiers of the issues, in input order: the keys of the seeded
results dict, from which the combined pattern is built. -/
def idsOf (issues : List Issue) : List String := issues.map Issue.key

/-- What the pull-request grouping loop computes on well-formed input. -/
def prDict (issues : List Issue) (prs : List PullRequest) :
    List (String × List PREntry) :=
  groupMany (fun p => lastSegment p.branch)
    (fun p => regexSearch (idsOf issues) p.branch) mkPREntry prs []

/-- What the pipeline grouping loop computes on well-formed input. -/
def pipeDict (issues : List Issue) (pipes : List Pipeline) :
    List (String × List PipelineEntry) :=
  groupMany (fun p => lastSegment p.branch)
    (fun p => regexSearch (idsOf issues) p.branch) mkPipelineEntry pipes []

/-- The pull requests attributed to a given key: exactly those whose branch
has that key as its final `/`-separated segment, in input order. -/
def matchedPRs (prs : List PullRequest) (k : String) : List PREntry :=
  (prs.filter (fun p => lastSegment p.branch == k)).map mkPREntry

/-- The pipeline runs grouped under a given key: exactly those whose branch
has that key as its final `/`-separated segment, in input order. -/
def matchedPipes (pipes : List Pipeline) (k : String) : List PipelineEntry :=
  (pipes.filter (fun p => lastSegment p.branch == k)).map mkPipelineEntry

/-- Closed form of the aggregated entry produced for one issue. -/
def resultFor (prs : List PullRequest) (pipes : List Pipeline) (i : Issue) : ResultEntry :=
  { initEntry i with
    pullrequests := matchedPRs prs i.key,
    pipelines := filterPipelines (matchedPipes pipes i.key) }

theorem prDict_get (issues : List Issue) (prs : List PullRequest) (i : Issue)
    (hi : i ∈ issues) :
    (alistGet (prDict issues prs) i.key).getD [] = matchedPRs prs i.key := by
  rw [prDict, groupMany_get]
  have h0 : alistGet ([] : List (String × List PREntry)) i.key = none := rfl
  rw [h0, combineGroup_none_getD, matchedPRs]
  refine congrArg (List.map mkPREntry) (filter_ext_mem prs _ _ (fun p _ => ?_))
  by_cases h : lastSegment p.branch = i.key
  · have hb : (lastSegment p.branch == i.key) = true := beq_iff_eq.mpr h
    rw [hb, regexSearch_of_lastSegment (idsOf issues) p.branch i.key
      (List.mem_map.mpr ⟨i, hi, rfl⟩) h]
    rfl
  · have hb : (lastSegment p.branch == i.key) = false := beq_eq_false_iff_ne.mpr h
    rw [hb, Bool.and_false]

theorem pipeDict_get (issues : List Issue) (pipes : List Pipeline) (i : Issue)
    (hi : i ∈ issues) :
    (alistGet (pipeDict issues pipes) i.key).getD [] = matchedPipes pipes i.key := by
  rw [pipeDict, groupMany_get]
  have h0 : alistGet ([] : List (String × List PipelineEntry)) i.key = none := rfl
  rw [h0, combineGroup_none_getD, matchedPipes]
  refine congrArg (List.map mkPipelineEntry) (filter_ext_mem pipes _ _ (fun p _ => ?_))
  by_cases h : lastSegment p.branch = i.key
  · have hb : (lastSegment p.branch == i.key) = true := beq_iff_eq.mpr h
    rw [hb, regexSearch_of_lastSegment (idsOf issues) p.branch i.key
      (List.mem_map.mpr ⟨i, hi, rfl⟩) h]
    rfl
  · have hb : (lastSegment p.branch == i.key) = false := beq_eq_false_iff_ne.mpr h
    rw [hb, Bool.and_false]

/-- Closed form of the whole aggregator on well-formed inputs with pairwise
distinct issue identifiers: one entry per issue, in input order, holding
exactly the pull requests and (filtered) pipelines whose branch ends in that
issue's identifier. -/
theorem parse_result_toRaw (issues : List Issue) (prs : List PullRequest)
    (pipes : List Pipeline) (hnd : (issues.map Issue.key).Nodup) :
    parse_result (issues.map Issue.toRaw) (prs.map PullRequest.toRaw)
        (pipes.map Pipeline.toRaw)
      = Except.ok (issues.map (resultFor prs pipes)) := by
  have hb : buildResults (issues.map Issue.toRaw) []
      = Except.ok (issues.map (fun i => (i.key, initEntry i))) := by
    rw [buildResults_toRaw, buildPure_eq_append issues [] hnd (by simp), List.nil_append]
  have hids : (issues.map (fun i => (i.key, initEntry i))).map Prod.fst = idsOf issues := by
    rw [List.map_map]
    exact map_ext_mem _ _ _ (fun i _ => rfl)
  have hpr : parse_pullrequests (prs.map PullRequest.toRaw) (idsOf issues)
      = Except.ok (prDict issues prs) := by
    unfold parse_pullrequests prDict
    exact parse_pullrequests_go_toRaw _ _ _
  have hpi : parse_pipelines (pipes.map Pipeline.toRaw) (idsOf issues)
      = Except.ok (pipeDict issues pipes) := by
    unfold parse_pipelines pipeDict
    exact parse_pipelines_go_toRaw _ _ _
  have hdpr : ((prDict issues prs).map Prod.fst).Nodup :=
    groupMany_keys_nodup _ _ _ _ [] (by simp)
  have hdpi : ((pipeDict issues pipes).map Prod.fst).Nodup :=
    groupMany_keys_nodup _ _ _ _ [] (by simp)
  simp only [parse_result, hb, except_bind_ok, hids, hpr, hpi]
  rw [mergePipelines_eq _ _ hdpi, mergePRs_eq _ _ hdpr, List.map_map, List.map_map,
    List.map_map]
  refine congrArg Except.ok (map_ext_mem _ _ _ (fun i hi => ?_))
  have e1 : setPipelines (pipeDict issues pipes) (i.key, initEntry i)
      = (i.key, { initEntry i with pipelines := filterPipelines (matchedPipes pipes i.key) }) := by
    rw [setPipelines, pipeDict_get issues pipes i hi]
    rfl
  have e2 : setPRs (prDict issues prs)
        (i.key, { initEntry i with pipelines := filterPipelines (matchedPipes pipes i.key) })
      = (i.key, resultFor prs pipes i) := by
    rw [setPRs]
    have h3 : (alistGet (prDict issues prs) i.key).getD
        ({ initEntry i with
            pipelines := filterPipelines (matchedPipes pipes i.key) } : ResultEntry).pullrequests
        = matchedPRs prs i.key := prDict_get issues prs i hi
    rw [h3]
    rfl
  simp only [Function.comp_apply]
  rw [e1, e2]

/-! ## Analysis of the pipeline filtering -/

/-- The regular-bucket computation of the filtering loop in isolation:
thread the kept entry and the running maximum past the migration entries. -/
def regOnly : List PipelineEntry → List PipelineEntry → Int → List PipelineEntry
  | [], regular, _ => regular
  | p :: rest, regular, last =>
    if strContains p.branch "migra" then regOnly rest regular last
    else if last < p.build_number then regOnly rest [p] p.build_number
    else regOnly rest regular last

/-- The retained regular entry (at most one) for a key's grouped pipelines. -/
def regularOf (pipes : List PipelineEntry) : List PipelineEntry :=
  regOnly pipes [] 0

theorem filterPipelines_go_decomp (l : List PipelineEntry)
    (migs reg : List PipelineEntry) (last : Int) :
    filterPipelines_go l migs reg last
      = (migs ++ l.filter (fun p => strContains p.branch "migra"), regOnly l reg last) := by
  induction l generalizing migs reg last with
  | nil => simp [filterPipelines_go, regOnly]
  | cons p rest ih =>
    by_cases hm : strContains p.branch "migra"
    · rw [filterPipelines_go, if_pos hm, ih]
      rw [regOnly, if_pos hm]
      simp [List.filter_cons, hm]
    · have hm' : strContains p.branch "migra" = false := by simpa using hm
      by_cases hlt : last < p.build_number
      · rw [filterPipelines_go, if_neg (by simp [hm']), if_pos hlt, ih]
        rw [regOnly, if_neg (by simp [hm']), if_pos hlt]
        simp [List.filter_cons, hm']
      · rw [filterPipelines_go, if_neg (by simp [hm']), if_neg hlt, ih]
        rw [regOnly, if_neg (by simp [hm']), if_neg hlt]
        simp [List.filter_cons, hm']

theorem filterPipelines_decomp (pipes : List PipelineEntry) :
    filterPipelines pipes
      = pipes.filter (fun p => strContains p.branch "migra") ++ regularOf pipes := by
  rw [filterPipelines, filterPipelines_go_decomp]
  rfl

theorem regOnly_length (l : List PipelineEntry) :
    ∀ (reg : List PipelineEntry) (last : Int), reg.length ≤ 1 →
      (regOnly l reg last).length ≤ 1 := by
  induction l with
  | nil => intro reg last h; exact h
  | cons p rest ih =>
    intro reg last h
    by_cases hm : strContains p.branch "migra"
    · rw [regOnly, if_pos hm]; exact ih reg last h
    · by_cases hlt : last < p.build_number
      · rw [regOnly, if_neg (by simpa using hm), if_pos hlt]
        exact ih [p] p.build_number (by simp)
      · rw [regOnly, if_neg (by simpa using hm), if_neg hlt]
        exact ih reg last h

theorem regOnly_mem (l : List PipelineEntry) :
    ∀ (reg : List PipelineEntry) (last : Int), ∀ q ∈ regOnly l reg last,
      q ∈ reg ∨ (q ∈ l ∧ strContains q.branch "migra" = false) := by
  induction l with
  | nil => intro reg last q hq; exact Or.inl hq
  | cons p rest ih =>
    intro reg last q hq
    by_cases hm : strContains p.branch "migra"
    · rw [regOnly, if_pos hm] at hq
      rcases ih reg last q hq with h | h
      · exact Or.inl h
      · exact Or.inr ⟨by simp [h.1], h.2⟩
    · have hm' : strContains p.branch "migra" = false := by simpa using hm
      by_cases hlt : last < p.build_number
      · rw [regOnly, if_neg (by simp [hm']), if_pos hlt] at hq
        rcases ih [p] p.build_number q hq with h | h
        · simp only [List.mem_singleton] at h
          exact Or.inr ⟨by simp [h], h ▸ hm'⟩
        · exact Or.inr ⟨by simp [h.1], h.2⟩
      · rw [regOnly, if_neg (by simp [hm']), if_neg hlt] at hq
        rcases ih reg last q hq with h | h
        · exact Or.inl h
        · exact Or.inr ⟨by simp [h.1], h.2⟩

theorem regOnly_pos (l : List PipelineEntry) :
    ∀ (reg : List PipelineEntry) (last : Int), 0 ≤ last →
      (∀ q ∈ reg, 0 < q.build_number) →
      ∀ q ∈ regOnly l reg last, 0 < q.build_number := by
  induction l with
  | nil => intro reg last _ hreg q hq; exact hreg q hq
  | cons p rest ih =>
    intro reg last hlast hreg q hq
    by_cases hm : strContains p.branch "migra"
    · rw [regOnly, if_pos hm] at hq
      exact ih reg last hlast hreg q hq
    · by_cases hlt : last < p.build_number
      · rw [regOnly, if_neg (by simpa using hm), if_pos hlt] at hq
        refine ih [p] p.build_number (le_of_lt (lt_of_le_of_lt hlast hlt)) ?_ q hq
        intro r hr
        simp only [List.mem_singleton] at hr
        exact hr ▸ lt_of_le_of_lt hlast hlt
      · rw [regOnly, if_neg (by simpa using hm), if_neg hlt] at hq
        exact ih reg last hlast hreg q hq

theorem regOnly_skip (l : List PipelineEntry) :
    ∀ (reg : List PipelineEntry) (last : Int),
      (∀ q ∈ l, strContains q.branch "migra" = true ∨ q.build_number ≤ last) →
      regOnly l reg last = reg := by
  induction l with
  | nil => intro reg last _; rfl
  | cons p rest ih =>
    intro reg last h
    by_cases hm : strContains p.branch "migra"
    · rw [regOnly, if_pos hm]
      exact ih reg last (fun q hq => h q (by simp [hq]))
    · have hle : p.build_number ≤ last := by
        rcases h p (by simp) with hh | hh
        · exact absurd hh (by simpa using hm)
        · exact hh
      rw [regOnly, if_neg (by simpa using hm), if_neg (not_lt.mpr hle)]
      exact ih reg last (fun q hq => h q (by simp [hq]))

theorem regOnly_max (l1 : List PipelineEntry) :
    ∀ (p : PipelineEntry) (l2 reg : List PipelineEntry) (last : Int),
      strContains p.branch "migra" = false →
      last < p.build_number →
      (∀ q ∈ l1, strContains q.branch "migra" = true ∨ q.build_number < p.build_number) →
      (∀ q ∈ l2, strContains q.branch "migra" = true ∨ q.build_number ≤ p.build_number) →
      regOnly (l1 ++ p :: l2) reg last = [p] := by
  induction l1 with
  | nil =>
    intro p l2 reg last hp hlast _ h2
    rw [List.nil_append, regOnly, if_neg (by simp [hp]), if_pos hlast]
    exact regOnly_skip l2 [p] p.build_number h2
  | cons q l1 ih =>
    intro p l2 reg last hp hlast h1 h2
    by_cases hqm : strContains q.branch "migra"
    · rw [List.cons_append, regOnly, if_pos hqm]
      exact ih p l2 reg last hp hlast (fun r hr => h1 r (by simp [hr])) h2
    · have hqlt : q.build_number < p.build_number := by
        rcases h1 q (by simp) with hh | hh
        · exact absurd hh (by simpa using hqm)
        · exact hh
      by_cases hql : last < q.build_number
      · rw [List.cons_append, regOnly, if_neg (by simpa using hqm), if_pos hql]
        exact ih p l2 [q] q.build_number hp hqlt (fun r hr => h1 r (by simp [hr])) h2
      · rw [List.cons_append, regOnly, if_neg (by simpa using hqm), if_neg hql]
        exact ih p l2 reg last hp hlast (fun r hr => h1 r (by simp [hr])) h2

theorem filterPipelines_mem (pipes : List PipelineEntry) :
    ∀ q ∈ filterPipelines pipes, q ∈ pipes := by
  intro q hq
  rw [filterPipelines_decomp] at hq
  rcases List.mem_append.mp hq with h | h
  · exact List.mem_of_mem_filter h
  · rcases regOnly_mem pipes [] 0 q h with h' | h'
    · simp at h'
    · exact h'.1

theorem filterPipelines_posOrMigra (pipes : List PipelineEntry) :
    ∀ q ∈ filterPipelines pipes,
      strContains q.branch "migra" = true ∨ 0 < q.build_number := by
  intro q hq
  rw [filterPipelines_decomp] at hq
  rcases List.mem_append.mp hq with h | h
  · exact Or.inl (by simpa using (List.mem_filter.mp h).2)
  · exact Or.inr (regOnly_pos pipes [] 0 le_rfl (by simp) q h)

/-! ## Error behaviour on malformed records -/

theorem except_bind_error {ε α β : Type} (e : ε) (f : α → Except ε β) :
    (Except.error e : Except ε α) >>= f = Except.error e := rfl

/-- The first missing access path of a raw issue record, in the order the
seeding code reads them; `none` when the record is complete. -/
def issueFirstMissing (j : RawIssue) : Option String :=
  if j.key.isNone then some "key"
  else if j.status.isNone then some "fields.status.name"
  else if j.issuetype.isNone then some "fields.issuetype.name"
  else if j.summary.isNone then some "fields.summary"
  else if j.reporter.isNone then some "fields.reporter.displayName"
  else if j.assignee.isNone then some "fields.assignee.displayName"
  else none

/-- The first missing access path of a raw pipeline record, in read order. -/
def pipeFirstMissing (p : RawPipeline) : Option String :=
  if p.branch.isNone then some "target.ref_name"
  else if p.build_number.isNone then some "build_number"
  else none

theorem makeResultEntry_error (j : RawIssue) (f : String)
    (h : issueFirstMissing j = some f) : makeResultEntry j = Except.error f := by
  rcases hk : j.key with _ | k
  · rw [issueFirstMissing, hk] at h
    simp only [Option.isNone_none, if_pos] at h
    obtain rfl : "key" = f := Option.some_injective _ h
    simp [makeResultEntry, jget, hk, except_bind_error]
  · rcases hs : j.status with _ | s
    · rw [issueFirstMissing, hk, hs] at h
      simp only [Option.isNone_some, Option.isNone_none, if_pos, if_neg] at h
      obtain rfl : "fields.status.name" = f := Option.some_injective _ (by simpa using h)
      simp [makeResultEntry, jget, hk, hs, except_bind_ok, except_bind_error]
    · rcases ht : j.issuetype with _ | t
      · rw [issueFirstMissing, hk, hs, ht] at h
        obtain rfl : "fields.issuetype.name" = f := Option.some_injective _ (by simpa using h)
        simp [makeResultEntry, jget, hk, hs, ht, except_bind_ok, except_bind_error]
      · rcases hsum : j.summary with _ | su
        · rw [issueFirstMissing, hk, hs, ht, hsum] at h
          obtain rfl : "fields.summary" = f := Option.some_injective _ (by simpa using h)
          simp [makeResultEntry, jget, hk, hs, ht, hsum, except_bind_ok, except_bind_error]
        · rcases hr : j.reporter with _ | r
          · rw [issueFirstMissing, hk, hs, ht, hsum, hr] at h
            obtain rfl : "fields.reporter.displayName" = f :=
              Option.some_injective _ (by simpa using h)
            simp [makeResultEntry, jget, hk, hs, ht, hsum, hr, except_bind_ok,
              except_bind_error]
          · rcases ha : j.assignee with _ | a
            · rw [issueFirstMissing, hk, hs, ht, hsum, hr, ha] at h
              obtain rfl : "fields.assignee.displayName" = f :=
                Option.some_injective _ (by simpa using h)
              simp [makeResultEntry, jget, hk, hs, ht, hsum, hr, ha, except_bind_ok,
                except_bind_error]
            · rw [issueFirstMissing, hk, hs, ht, hsum, hr, ha] at h
              simp at h

theorem buildResults_error (issuesA : List Issue) (j : RawIssue)
    (issuesB : List RawIssue) (f : String) (h : makeResultEntry j = Except.error f) :
    ∀ acc, buildResults ((issuesA.map Issue.toRaw) ++ j :: issuesB) acc
      = Except.error f := by
  induction issuesA with
  | nil =>
    intro acc
    rw [List.map_nil, List.nil_append, buildResults, h]
    rfl
  | cons i rest ih =>
    intro acc
    rw [List.map_cons, List.cons_append, buildResults, makeResultEntry_toRaw,
      except_bind_ok]
    exact ih _

theorem parse_pullrequests_go_error_branch (ids : List String)
    (prsA : List PullRequest) (q : RawPullRequest) (prsB : List RawPullRequest)
    (hq : q.branch = none) :
    ∀ acc, parse_pullrequests_go ids ((prsA.map PullRequest.toRaw) ++ q :: prsB) acc
      = Except.error "source.branch.name" := by
  induction prsA with
  | nil =>
    intro acc
    rw [List.map_nil, List.nil_append, parse_pullrequests_go, hq]
  | cons p rest ih =>
    intro acc
    rw [List.map_cons, List.cons_append, parse_pullrequests_go]
    show (if regexSearch ids p.branch then _ else _) = _
    by_cases h : regexSearch ids p.branch
    · rw [if_pos h]
      exact ih _
    · rw [if_neg h]
      exact ih _

theorem parse_pullrequests_go_error_url (ids : List String)
    (prsA : List PullRequest) (q : RawPullRequest) (prsB : List RawPullRequest)
    (b : String) (hqb : q.branch = some b) (hmatch : regexSearch ids b = true)
    (hqu : q.url = none) :
    ∀ acc, parse_pullrequests_go ids ((prsA.map PullRequest.toRaw) ++ q :: prsB) acc
      = Except.error "links.html.href" := by
  induction prsA with
  | nil =>
    intro acc
    rw [List.map_nil, List.nil_append, parse_pullrequests_go, hqb]
    show (if regexSearch ids b then _ else _) = _
    rw [if_pos hmatch, hqu]
  | cons p rest ih =>
    intro acc
    rw [List.map_cons, List.cons_append, parse_pullrequests_go]
    show (if regexSearch ids p.branch then _ else _) = _
    by_cases h : regexSearch ids p.branch
    · rw [if_pos h]
      exact ih _
    · rw [if_neg h]
      exact ih _

theorem parse_pipelines_go_error (ids : List String) (pipesA : List Pipeline)
    (q : RawPipeline) (pipesB : List RawPipeline) (f : String)
    (h : pipeFirstMissing q = some f) :
    ∀ acc, parse_pipelines_go ids ((pipesA.map Pipeline.toRaw) ++ q :: pipesB) acc
      = Except.error f := by
  induction pipesA with
  | nil =>
    intro acc
    rcases hb : q.branch with _ | b
    · rw [pipeFirstMissing, hb] at h
      obtain rfl : "target.ref_name" = f := Option.some_injective _ (by simpa using h)
      rw [List.map_nil, List.nil_append, parse_pipelines_go, hb]
    · rcases hn : q.build_number with _ | n
      · rw [pipeFirstMissing, hb, hn] at h
        obtain rfl : "build_number" = f := Option.some_injective _ (by simpa using h)
        rw [List.map_nil, List.nil_append, parse_pipelines_go, hb, hn]
      · rw [pipeFirstMissing, hb, hn] at h
        simp at h
  | cons p rest ih =>
    intro acc
    rw [List.map_cons, List.cons_append, parse_pipelines_go]
    show (if regexSearch ids p.branch then _ else _) = _
    by_cases hr : regexSearch ids p.branch
    · rw [if_pos hr]
      exact ih _
    · rw [if_neg hr]
      exact ih _

theorem regOnly_filter (l : List PipelineEntry) :
    ∀ (reg : List PipelineEntry) (last : Int),
      regOnly l reg last
        = regOnly (l.filter (fun p => !strContains p.branch "migra")) reg last := by
  induction l with
  | nil => intro reg last; rfl
  | cons p rest ih =>
    intro reg last
    by_cases hm : strContains p.branch "migra"
    · rw [regOnly, if_pos hm]
      have e : List.filter (fun p => !strContains p.branch "migra") (p :: rest)
          = List.filter (fun p => !strContains p.branch "migra") rest := by
        simp [List.filter_cons, hm]
      rw [e]
      exact ih reg last
    · have hm' : strContains p.branch "migra" = false := by simpa using hm
      have e : List.filter (fun p => !strContains p.branch "migra") (p :: rest)
          = p :: List.filter (fun p => !strContains p.branch "migra") rest := by
        simp [List.filter_cons, hm']
      rw [e]
      by_cases hlt : last < p.build_number
      · rw [regOnly, if_neg (by simp [hm']), if_pos hlt,
          regOnly, if_neg (by simp [hm']), if_pos hlt]
        exact ih [p] p.build_number
      · rw [regOnly, if_neg (by simp [hm']), if_neg hlt,
          regOnly, if_neg (by simp [hm']), if_neg hlt]
        exact ih reg last

/-! ## Concrete fixtures used by witnesses and counterexamples -/

/-- A well-formed issue with identifier `ABC-1`. -/
def issueABC : Issue :=
  { key := "ABC-1", status := "Done", issuetype := "Task", summary := "T",
    reporter := "R", assignee := "A" }

/-! ## The claims -/

/-- C1: for every non-empty Issues input whose identifiers are pairwise
distinct, the aggregator succeeds with exactly one result per input issue:
the output length equals the Issues length and the output identifiers are
exactly the input identifiers in input order. -/
theorem c1_length_and_ids (issues : List Issue) (prs : List PullRequest)
    (pipes : List Pipeline) (hne : issues ≠ [])
    (hnd : (issues.map Issue.key).Nodup) :
    ∃ out, parse_result (issues.map Issue.toRaw) (prs.map PullRequest.toRaw)
        (pipes.map Pipeline.toRaw) = Except.ok out
      ∧ out.length = issues.length
      ∧ out.map ResultEntry.id = issues.map Issue.key := by
  refine ⟨_, parse_result_toRaw issues prs pipes hnd, by simp, ?_⟩
  rw [List.map_map]
  exact map_ext_mem _ _ _ (fun i _ => rfl)

/-- C1 witness: the theorem applied to a concrete one-issue input. -/
theorem c1_witness :
    ∃ out, parse_result ([issueABC].map Issue.toRaw)
        (([] : List PullRequest).map PullRequest.toRaw)
        (([] : List Pipeline).map Pipeline.toRaw) = Except.ok out
      ∧ out.length = [issueABC].length
      ∧ out.map ResultEntry.id = [issueABC].map Issue.key :=
  c1_length_and_ids [issueABC] [] [] (by decide) (by decide)

/-- C2 counterexample: the branch `feature/ABC-1-x` contains the identifier
`ABC-1` as a substring, yet the pull request is associated with no issue: the
sole output entry keeps an empty pull-request list, because the code groups
by the branch's last `/`-segment (`ABC-1-x`), which is not an issue key. -/
theorem c2_counterexample :
    strContains "feature/ABC-1-x" "ABC-1" = true
    ∧ parse_result [issueABC.toRaw]
        [PullRequest.toRaw { branch := "feature/ABC-1-x", url := "u1" }] []
      = Except.ok [initEntry issueABC]
    ∧ (initEntry issueABC).pullrequests = [] := by
  exact ⟨rfl, rfl, rfl⟩

/-- C2 (amended): a pull request or pipeline run is associated with an issue
precisely when the final `/`-separated segment of its branch equals the
issue's identifier (such a branch always also matches the combined
alternation pattern); the issue's entry carries exactly those pull requests,
and its pipelines are the filtered form of exactly those runs. -/
theorem c2_amended (issues : List Issue) (prs : List PullRequest)
    (pipes : List Pipeline) (hnd : (issues.map Issue.key).Nodup)
    (i : Issue) (hi : i ∈ issues) :
    ∃ out, parse_result (issues.map Issue.toRaw) (prs.map PullRequest.toRaw)
        (pipes.map Pipeline.toRaw) = Except.ok out
      ∧ ∃ e ∈ out, e.id = i.key
        ∧ e.pullrequests = matchedPRs prs i.key
        ∧ e.pipelines = filterPipelines (matchedPipes pipes i.key) :=
  ⟨_, parse_result_toRaw issues prs pipes hnd,
    resultFor prs pipes i, List.mem_map.mpr ⟨i, hi, rfl⟩, rfl, rfl, rfl⟩

/-- C2 witness: the amended theorem applied to a concrete input where the
branch's last segment is the identifier. -/
theorem c2_amended_witness :
    ∃ out, parse_result ([issueABC].map Issue.toRaw)
        (([{ branch := "feature/ABC-1", url := "u1" }] : List PullRequest).map PullRequest.toRaw)
        (([] : List Pipeline).map Pipeline.toRaw) = Except.ok out
      ∧ ∃ e ∈ out, e.id = issueABC.key
        ∧ e.pullrequests = matchedPRs [{ branch := "feature/ABC-1", url := "u1" }] issueABC.key
        ∧ e.pipelines = filterPipelines (matchedPipes [] issueABC.key) :=
  c2_amended [issueABC] [{ branch := "feature/ABC-1", url := "u1" }] []
    (by decide) issueABC (by decide)

/-- C3 counterexample: with the spec's own example input — issue `ABC-1` and
pipelines `feature/migra-ABC-1` (build 1) and `feature/ABC-1` (build 9) —
the output entry's pipeline list holds only the regular entry with build 9;
the migration entry is dropped, because its grouping key (the branch's last
`/`-segment, `migra-ABC-1`) is not an issue identifier. -/
theorem c3_counterexample :
    parse_result [issueABC.toRaw] []
        [Pipeline.toRaw { branch := "feature/migra-ABC-1", build_number := 1 },
         Pipeline.toRaw { branch := "feature/ABC-1", build_number := 9 }]
      = Except.ok [{ initEntry issueABC with pipelines :=
          [{ url := "https://bitbucket.example/pipelines/results/9",
             branch := "feature/ABC-1", build_number := 9 }] }]
    ∧ ∀ q ∈ ([{ url := "https://bitbucket.example/pipelines/results/9",
                branch := "feature/ABC-1", build_number := 9 }] : List PipelineEntry),
        q.branch ≠ "feature/migra-ABC-1" := by
  exact ⟨rfl, by decide⟩

/-- C3 (amended): when the migration branch keeps the identifier as its final
`/`-segment — `feature/migra/ABC-1` — both the migration entry and the one
regular entry appear in the output pipeline list, migration first. -/
theorem c3_amended :
    parse_result [issueABC.toRaw] []
        [Pipeline.toRaw { branch := "feature/migra/ABC-1", build_number := 1 },
         Pipeline.toRaw { branch := "feature/ABC-1", build_number := 9 }]
      = Except.ok [{ initEntry issueABC with pipelines :=
          [{ url := "https://bitbucket.example/pipelines/results/1",
             branch := "feature/migra/ABC-1", build_number := 1 },
           { url := "https://bitbucket.example/pipelines/results/9",
             branch := "feature/ABC-1", build_number := 9 }] }] := by
  rfl

/-- C4 counterexample: a key whose only regular pipeline run has build number
0 — the strictly largest build number among its regular runs — retains
nothing, because the running maximum starts at 0 and is compared with a
strict `<`; the claim's universal "exactly the entry with the strictly
largest build number is retained" fails at this input. -/
theorem c4_counterexample :
    parse_result [issueABC.toRaw] []
        [Pipeline.toRaw { branch := "feature/ABC-1", build_number := 0 }]
      = Except.ok [initEntry issueABC]
    ∧ (initEntry issueABC).pipelines = []
    ∧ regularOf (matchedPipes [{ branch := "feature/ABC-1", build_number := 0 }] "ABC-1")
        = [] := by
  exact ⟨rfl, rfl, rfl⟩

/-- C4 (amended): among a key's pipeline runs whose branch does not contain
"migra", the retained entry is the first one attaining the strictly largest
build number, provided that build number is positive (running-max reduction
with strict `<`, initialised to 0, so ties resolve first-seen-wins); when
every regular run has build number at most 0, nothing is retained. -/
theorem c4_amended (pipes : List PipelineEntry) :
    (∀ (l1 : List PipelineEntry) (p : PipelineEntry) (l2 : List PipelineEntry),
      pipes.filter (fun q => !strContains q.branch "migra") = l1 ++ p :: l2 →
      0 < p.build_number →
      (∀ q ∈ l1, q.build_number < p.build_number) →
      (∀ q ∈ l2, q.build_number ≤ p.build_number) →
      regularOf pipes = [p])
    ∧ ((∀ q ∈ pipes, strContains q.branch "migra" = true ∨ q.build_number ≤ 0) →
      regularOf pipes = []) := by
  constructor
  · intro l1 p l2 hsplit hpos h1 h2
    have hpmem : p ∈ pipes.filter (fun q => !strContains q.branch "migra") := by
      rw [hsplit]
      simp
    have hp : strContains p.branch "migra" = false := by
      simpa using (List.mem_filter.mp hpmem).2
    rw [regularOf, regOnly_filter, hsplit]
    exact regOnly_max l1 p l2 [] 0 hp hpos
      (fun q hq => Or.inr (h1 q hq)) (fun q hq => Or.inr (h2 q hq))
  · intro h
    rw [regularOf]
    exact regOnly_skip pipes [] 0 h

/-- C4 witness: the amended theorem applied to the spec's `[3, 7, 5]`
example — only the entry with build number 7 is retained. -/
theorem c4_amended_witness :
    regularOf [{ url := "u3", branch := "feature/ABC-1", build_number := 3 },
               { url := "u7", branch := "feature/ABC-1", build_number := 7 },
               { url := "u5", branch := "feature/ABC-1", build_number := 5 }]
      = [{ url := "u7", branch := "feature/ABC-1", build_number := 7 }] :=
  (c4_amended _).1 [{ url := "u3", branch := "feature/ABC-1", build_number := 3 }]
    { url := "u7", branch := "feature/ABC-1", build_number := 7 }
    [{ url := "u5", branch := "feature/ABC-1", build_number := 5 }]
    (by decide) (by decide) (by decide) (by decide)

/-- C5: with an empty Issues input the aggregator returns the empty result
list and no error, whatever well-formed pull requests and pipeline runs are
supplied (the empty-keys pattern matches every branch, but every grouped
record is then dropped against the empty results dict). -/
theorem c5_empty_issues (prs : List PullRequest) (pipes : List Pipeline) :
    parse_result [] (prs.map PullRequest.toRaw) (pipes.map Pipeline.toRaw)
      = Except.ok [] := by
  have h := parse_result_toRaw [] prs pipes (by simp)
  simpa using h

/-- C6 counterexample: a pull-request record missing its URL field — an
expected field of the PullRequests collection — whose branch matches no
identifier is silently skipped: the aggregator returns a normal result
instead of failing fast with an error. -/
theorem c6_counterexample :
    ({ branch := some "zzz", url := none } : RawPullRequest).url = none
    ∧ parse_result [issueABC.toRaw] [{ branch := some "zzz", url := none }] []
      = Except.ok [initEntry issueABC] := by
  exact ⟨rfl, rfl⟩

/-- C6 (amended): a record missing a field that the aggregator actually reads
fails fast with an error naming that field's access path (not the
collection), and no partial result is returned: any malformed issue record,
any pull-request record missing its branch, any pull-request record whose
branch matches the combined pattern but whose URL is missing, and any
pipeline record missing its branch or build number trigger the error; a
pull request missing only its URL is read no further when its branch does
not match, and is then silently dropped. -/
theorem c6_amended :
    (∀ (issuesA : List Issue) (j : RawIssue) (issuesB : List RawIssue)
        (prs : List RawPullRequest) (pipes : List RawPipeline) (f : String),
      issueFirstMissing j = some f →
      parse_result ((issuesA.map Issue.toRaw) ++ j :: issuesB) prs pipes
        = Except.error f)
    ∧ (∀ (issues : List Issue) (prsA : List PullRequest) (q : RawPullRequest)
        (prsB : List RawPullRequest) (pipes : List RawPipeline),
      q.branch = none →
      parse_result (issues.map Issue.toRaw) ((prsA.map PullRequest.toRaw) ++ q :: prsB)
        pipes = Except.error "source.branch.name")
    ∧ (∀ (issues : List Issue) (prs : List PullRequest) (pipesA : List Pipeline)
        (q : RawPipeline) (pipesB : List RawPipeline) (f : String),
      pipeFirstMissing q = some f →
      parse_result (issues.map Issue.toRaw) (prs.map PullRequest.toRaw)
        ((pipesA.map Pipeline.toRaw) ++ q :: pipesB) = Except.error f)
    ∧ (∀ (issues : List Issue) (prsA : List PullRequest) (q : RawPullRequest)
        (prsB : List RawPullRequest) (pipes : List RawPipeline) (b : String),
      q.branch = some b → q.url = none →
      regexSearch ((buildPure issues []).map Prod.fst) b = true →
      parse_result (issues.map Issue.toRaw) ((prsA.map PullRequest.toRaw) ++ q :: prsB)
        pipes = Except.error "links.html.href") := by
  refine ⟨?_, ?_, ?_, ?_⟩
  · intro issuesA j issuesB prs pipes f h
    have hb := buildResults_error issuesA j issuesB f (makeResultEntry_error j f h) []
    simp only [parse_result, hb, except_bind_error]
  · intro issues prsA q prsB pipes hq
    have hb : buildResults (issues.map Issue.toRaw) []
        = Except.ok (buildPure issues []) := buildResults_toRaw issues []
    have hpr := parse_pullrequests_go_error_branch
      ((buildPure issues []).map Prod.fst) prsA q prsB hq []
    simp only [parse_result, hb, except_bind_ok, parse_pullrequests, hpr,
      except_bind_error]
  · intro issues prs pipesA q pipesB f h
    have hb : buildResults (issues.map Issue.toRaw) []
        = Except.ok (buildPure issues []) := buildResults_toRaw issues []
    have hpr := parse_pullrequests_go_toRaw ((buildPure issues []).map Prod.fst) prs []
    have hpi := parse_pipelines_go_error ((buildPure issues []).map Prod.fst)
      pipesA q pipesB f h []
    simp only [parse_result, hb, except_bind_ok, parse_pullrequests, hpr,
      parse_pipelines, hpi, except_bind_error]
  · intro issues prsA q prsB pipes b hqb hqu hmatch
    have hb : buildResults (issues.map Issue.toRaw) []
        = Except.ok (buildPure issues []) := buildResults_toRaw issues []
    have hpr := parse_pullrequests_go_error_url
      ((buildPure issues []).map Prod.fst) prsA q prsB b hqb hmatch hqu []
    simp only [parse_result, hb, except_bind_ok, parse_pullrequests, hpr,
      except_bind_error]

/-- C6 witness: the amended theorem applied to an issue record missing its
key, and to a pull request whose branch matches but whose URL is missing:
both fail fast with an error naming the missing field's access path. -/
theorem c6_amended_witness :
    (parse_result ((([] : List Issue).map Issue.toRaw)
        ++ ({ key := none, status := none, issuetype := none, summary := none,
              reporter := none, assignee := none } : RawIssue) :: []) [] []
      = Except.error "key")
    ∧ (parse_result ([issueABC].map Issue.toRaw)
        ((([] : List PullRequest).map PullRequest.toRaw)
          ++ ({ branch := some "feature/ABC-1", url := none } : RawPullRequest) :: []) []
      = Except.error "links.html.href") :=
  ⟨c6_amended.1 [] _ [] [] [] "key" (by decide),
   c6_amended.2.2.2 [issueABC] [] _ [] [] "feature/ABC-1" rfl rfl (by decide)⟩

/-- C7: on well-formed input with pairwise distinct identifiers, every pull
request or pipeline run appearing in any output entry has a branch containing
some issue identifier (so an unmatched record appears in no output entry),
the output identifiers are pairwise distinct, and each equals exactly one
input issue's identifier; no entry is created for unmatched records. -/
theorem c7_invariants (issues : List Issue) (prs : List PullRequest)
    (pipes : List Pipeline) (hnd : (issues.map Issue.key).Nodup) :
    ∃ out, parse_result (issues.map Issue.toRaw) (prs.map PullRequest.toRaw)
        (pipes.map Pipeline.toRaw) = Except.ok out
      ∧ (∀ e ∈ out, ∀ x ∈ e.pullrequests,
          ∃ id ∈ issues.map Issue.key, strContains x.branch id = true)
      ∧ (∀ e ∈ out, ∀ q ∈ e.pipelines,
          ∃ id ∈ issues.map Issue.key, strContains q.branch id = true)
      ∧ (out.map ResultEntry.id).Nodup
      ∧ (∀ e ∈ out, (issues.map Issue.key).count e.id = 1) := by
  have hids : (issues.map (resultFor prs pipes)).map ResultEntry.id
      = issues.map Issue.key := by
    rw [List.map_map]
    exact map_ext_mem _ _ _ (fun i _ => rfl)
  refine ⟨_, parse_result_toRaw issues prs pipes hnd, ?_, ?_, ?_, ?_⟩
  · intro e he x hx
    obtain ⟨i, hi, rfl⟩ := List.mem_map.mp he
    have hx' : x ∈ matchedPRs prs i.key := hx
    obtain ⟨p, hp, rfl⟩ := List.mem_map.mp hx'
    have hseg : lastSegment p.branch = i.key := by
      simpa using (List.mem_filter.mp hp).2
    refine ⟨i.key, List.mem_map.mpr ⟨i, hi, rfl⟩, ?_⟩
    rw [← hseg]
    exact strContains_lastSegment p.branch
  · intro e he q hq
    obtain ⟨i, hi, rfl⟩ := List.mem_map.mp he
    have hq' : q ∈ matchedPipes pipes i.key :=
      filterPipelines_mem (matchedPipes pipes i.key) q hq
    obtain ⟨p, hp, rfl⟩ := List.mem_map.mp hq'
    have hseg : lastSegment p.branch = i.key := by
      simpa using (List.mem_filter.mp hp).2
    refine ⟨i.key, List.mem_map.mpr ⟨i, hi, rfl⟩, ?_⟩
    rw [← hseg]
    exact strContains_lastSegment p.branch
  · rw [hids]
    exact hnd
  · intro e he
    obtain ⟨i, hi, rfl⟩ := List.mem_map.mp he
    exact List.count_eq_one_of_mem hnd (List.mem_map.mpr ⟨i, hi, rfl⟩)

/-- C7 witness: the theorem applied to a one-issue input with an unmatched
pull request, which appears in no output entry. -/
theorem c7_witness :
    ∃ out, parse_result ([issueABC].map Issue.toRaw)
        (([{ branch := "feature/XYZ-9", url := "u2" }] : List PullRequest).map PullRequest.toRaw)
        (([] : List Pipeline).map Pipeline.toRaw) = Except.ok out
      ∧ (∀ e ∈ out, ∀ x ∈ e.pullrequests,
          ∃ id ∈ [issueABC].map Issue.key, strContains x.branch id = true)
      ∧ (∀ e ∈ out, ∀ q ∈ e.pipelines,
          ∃ id ∈ [issueABC].map Issue.key, strContains q.branch id = true)
      ∧ (out.map ResultEntry.id).Nodup
      ∧ (∀ e ∈ out, ([issueABC].map Issue.key).count e.id = 1) :=
  c7_invariants [issueABC] [{ branch := "feature/XYZ-9", url := "u2" }] [] (by decide)

/-- C8: each output entry's pipeline list is the key's migration entries in
input order followed by the retained regular entry; at most one regular
entry is retained, any retained entry is a non-migration run grouped under
the key, and when the key has no regular run nothing regular is retained. -/
theorem c8_pipeline_order (issues : List Issue) (prs : List PullRequest)
    (pipes : List Pipeline) (hnd : (issues.map Issue.key).Nodup) :
    ∃ out, parse_result (issues.map Issue.toRaw) (prs.map PullRequest.toRaw)
        (pipes.map Pipeline.toRaw) = Except.ok out
      ∧ ∀ e ∈ out,
          e.pipelines
            = (matchedPipes pipes e.id).filter (fun q => strContains q.branch "migra")
              ++ regularOf (matchedPipes pipes e.id)
          ∧ (regularOf (matchedPipes pipes e.id)).length ≤ 1
          ∧ (∀ q ∈ regularOf (matchedPipes pipes e.id),
              q ∈ matchedPipes pipes e.id ∧ strContains q.branch "migra" = false)
          ∧ ((matchedPipes pipes e.id).filter (fun q => !strContains q.branch "migra") = []
              → regularOf (matchedPipes pipes e.id) = []) := by
  refine ⟨_, parse_result_toRaw issues prs pipes hnd, ?_⟩
  intro e he
  obtain ⟨i, hi, rfl⟩ := List.mem_map.mp he
  refine ⟨filterPipelines_decomp (matchedPipes pipes i.key), ?_, ?_, ?_⟩
  · exact regOnly_length _ [] 0 (by simp)
  · intro q hq
    rcases regOnly_mem (matchedPipes pipes i.key) [] 0 q hq with h | h
    · simp at h
    · exact h
  · intro hnone
    rw [regularOf, regOnly_filter, hnone]
    rfl

/-- C8 witness: the theorem applied to a one-issue input with one migration
and two regular pipeline runs. -/
theorem c8_witness :
    ∃ out, parse_result ([issueABC].map Issue.toRaw)
        (([] : List PullRequest).map PullRequest.toRaw)
        (([{ branch := "feature/migra/ABC-1", build_number := 1 },
            { branch := "feature/ABC-1", build_number := 9 }] : List Pipeline).map Pipeline.toRaw)
        = Except.ok out
      ∧ ∀ e ∈ out,
          e.pipelines
            = (matchedPipes [{ branch := "feature/migra/ABC-1", build_number := 1 },
                             { branch := "feature/ABC-1", build_number := 9 }] e.id).filter
                  (fun q => strContains q.branch "migra")
              ++ regularOf (matchedPipes [{ branch := "feature/migra/ABC-1", build_number := 1 },
                             { branch := "feature/ABC-1", build_number := 9 }] e.id)
          ∧ (regularOf (matchedPipes [{ branch := "feature/migra/ABC-1", build_number := 1 },
                             { branch := "feature/ABC-1", build_number := 9 }] e.id)).length ≤ 1
          ∧ (∀ q ∈ regularOf (matchedPipes [{ branch := "feature/migra/ABC-1", build_number := 1 },
                             { branch := "feature/ABC-1", build_number := 9 }] e.id),
              q ∈ matchedPipes [{ branch := "feature/migra/ABC-1", build_number := 1 },
                             { branch := "feature/ABC-1", build_number := 9 }] e.id
              ∧ strContains q.branch "migra" = false)
          ∧ ((matchedPipes [{ branch := "feature/migra/ABC-1", build_number := 1 },
                             { branch := "feature/ABC-1", build_number := 9 }] e.id).filter
                  (fun q => !strContains q.branch "migra") = []
              → regularOf (matchedPipes [{ branch := "feature/migra/ABC-1", build_number := 1 },
                             { branch := "feature/ABC-1", build_number := 9 }] e.id) = []) :=
  c8_pipeline_order [issueABC] []
    [{ branch := "feature/migra/ABC-1", build_number := 1 },
     { branch := "feature/ABC-1", build_number := 9 }] (by decide)

/-- C9: the aggregator is a deterministic function of its three inputs:
identical inputs yield identical output (the embedding is a total pure
function; the source routine performs no input/output and reads only its
arguments and module-level constants). -/
theorem c9_deterministic (j j' : List RawIssue) (p p' : List RawPullRequest)
    (q q' : List RawPipeline) (hj : j = j') (hp : p = p') (hq : q = q') :
    parse_result j p q = parse_result j' p' q' := by
  rw [hj, hp, hq]

/-- C9 witness: the theorem applied at a concrete input. -/
theorem c9_witness :
    parse_result [issueABC.toRaw] [] [] = parse_result [issueABC.toRaw] [] [] :=
  c9_deterministic [issueABC.toRaw] [issueABC.toRaw] [] [] [] [] rfl rfl rfl

/-- C10: a non-migration pipeline run whose build number is at most 0 is
never retained in any output entry: every pipeline entry of every output
record either is a migration entry or has a positive build number, because
the running maximum starts at 0 and is compared with strict `<`. -/
theorem c10_nonpositive_never_retained (issues : List Issue)
    (prs : List PullRequest) (pipes : List Pipeline)
    (hnd : (issues.map Issue.key).Nodup) :
    ∃ out, parse_result (issues.map Issue.toRaw) (prs.map PullRequest.toRaw)
        (pipes.map Pipeline.toRaw) = Except.ok out
      ∧ ∀ e ∈ out, ∀ q ∈ e.pipelines,
          strContains q.branch "migra" = true ∨ 0 < q.build_number := by
  refine ⟨_, parse_result_toRaw issues prs pipes hnd, ?_⟩
  intro e he q hq
  obtain ⟨i, hi, rfl⟩ := List.mem_map.mp he
  exact filterPipelines_posOrMigra (matchedPipes pipes i.key) q hq

/-- C10 witness: the theorem applied to an input whose only regular pipeline
run has build number 0 (and is dropped). -/
theorem c10_witness :
    ∃ out, parse_result ([issueABC].map Issue.toRaw)
        (([] : List PullRequest).map PullRequest.toRaw)
        (([{ branch := "feature/ABC-1", build_number := 0 }] : List Pipeline).map Pipeline.toRaw)
        = Except.ok out
      ∧ ∀ e ∈ out, ∀ q ∈ e.pipelines,
          strContains q.branch "migra" = true ∨ 0 < q.build_number :=
  c10_nonpositive_never_retained [issueABC] []
    [{ branch := "feature/ABC-1", build_number := 0 }] (by decide)
